import Mathlib

/-!
Verification of the XmlToLuaConverter core pipeline (`parse_fnt` followed by
`format_output`, from `src/main.rs`) against its specification.

The decoder consumes a stream of XML events produced by the `quick_xml`
library.  We embed the event stream as the inductive type `XmlEvent` and the
decoder loop as an explicit fold with early exit (`runEvents`).  The Rust
`BTreeMap<u32, Character>` is embedded as an association list kept sorted by
key (`insertSorted`), which is exactly the iteration/insertion behaviour the
emitter relies on.  Machine integers (`i32`, `u32`) are embedded as `Int` and
`Nat` with explicit range checks in the string-to-integer parsers; no
arithmetic is performed on the parsed values, so overflow cannot occur after
parsing.  The `eprintln!` diagnostic is modelled as a log component of the
decoder state.
-/

/-- One event of the XML tokenizer, mirroring the `quick_xml::events::Event`
cases the source program distinguishes: `Start`, `Empty` (self-closing tag,
with its attribute list), `End`, `Text`, a tokenizer error, and `Eof`.
Attributes are name/value pairs in document order. -/
inductive XmlEvent where
  | start (name : String) (attrs : List (String × String))
  | empty (name : String) (attrs : List (String × String))
  | endTag (name : String)
  | text (content : String)
  | err (message : String)
  | eof
  deriving DecidableEq, Repr

/-- Numeric value of an ASCII decimal digit, `none` on any other character. -/
def digitVal (c : Char) : Option Nat :=
  if 48 ≤ c.toNat ∧ c.toNat ≤ 57 then some (c.toNat - 48) else none

/-- Accumulate the decimal value of a digit string; `none` if any character is
not an ASCII digit. -/
def digitsVal (cs : List Char) (acc : Nat) : Option Nat :=
  match cs with
  | [] => some acc
  | c :: rest =>
    match digitVal c with
    | some d => digitsVal rest (acc * 10 + d)
    | none => none

/-- Value of a nonempty all-digit string; `none` when empty or non-digit. -/
def parseNatDigits (cs : List Char) : Option Nat :=
  match cs with
  | [] => none
  | _ => digitsVal cs 0

/-- Rust `str::parse::<i32>`: an optional sign followed by at least one
decimal digit, rejected when the value is outside the `i32` range. -/
def parseI32 (s : String) : Option Int :=
  match s.data with
  | '+' :: rest =>
    match parseNatDigits rest with
    | some n => if n < 2147483648 then some (Int.ofNat n) else none
    | none => none
  | '-' :: rest =>
    match parseNatDigits rest with
    | some n => if n ≤ 2147483648 then some (- Int.ofNat n) else none
    | none => none
  | cs =>
    match parseNatDigits cs with
    | some n => if n < 2147483648 then some (Int.ofNat n) else none
    | none => none

/-- Rust `str::parse::<u32>`: an optional `+` followed by at least one
decimal digit, rejected when the value is outside the `u32` range.  A minus
sign is rejected. -/
def parseU32 (s : String) : Option Nat :=
  match s.data with
  | '+' :: rest =>
    match parseNatDigits rest with
    | some n => if n < 4294967296 then some n else none
    | none => none
  | cs =>
    match parseNatDigits cs with
    | some n => if n < 4294967296 then some n else none
    | none => none

/-- Pixel offset applied when placing the glyph (source `struct
CharacterOffset`). -/
structure CharacterOffset where
  x : Int
  y : Int
  deriving DecidableEq, Repr

/-- Pixel extent of the glyph subrectangle (source `struct CharacterSize`). -/
structure CharacterSize where
  width : Int
  height : Int
  deriving DecidableEq, Repr

/-- Pixel coordinates of the glyph in the atlas (source `struct
CharacterPosition`). -/
structure CharacterPosition where
  x : Int
  y : Int
  deriving DecidableEq, Repr

/-- One glyph record (source `struct Character`). -/
structure Character where
  size : CharacterSize
  position : CharacterPosition
  offset : CharacterOffset
  advance : Int
  deriving DecidableEq, Repr

/-- The eight mutable locals of the `Empty("char")` arm of `parse_fnt`,
initialised to zero before the attribute loop. -/
structure CharVars where
  id : Nat
  width : Int
  height : Int
  x : Int
  y : Int
  xoffset : Int
  yoffset : Int
  xadvance : Int
  deriving DecidableEq, Repr

/-- All-zero initial values of the `char` attribute locals. -/
def initCharVars : CharVars := ⟨0, 0, 0, 0, 0, 0, 0, 0⟩

/-- One iteration of the attribute loop in the `Empty("char")` arm: a
recognised key updates its local (a parse failure propagates as `none`, the
Rust `?`), an unrecognised key falls to the `_ => {}` arm. -/
def applyCharAttr (v : CharVars) (attr : String × String) : Option CharVars :=
  if attr.1 = "id" then
    match parseU32 attr.2 with
    | some n => some { v with id := n }
    | none => none
  else if attr.1 = "x" then
    match parseI32 attr.2 with
    | some n => some { v with x := n }
    | none => none
  else if attr.1 = "y" then
    match parseI32 attr.2 with
    | some n => some { v with y := n }
    | none => none
  else if attr.1 = "width" then
    match parseI32 attr.2 with
    | some n => some { v with width := n }
    | none => none
  else if attr.1 = "height" then
    match parseI32 attr.2 with
    | some n => some { v with height := n }
    | none => none
  else if attr.1 = "xoffset" then
    match parseI32 attr.2 with
    | some n => some { v with xoffset := n }
    | none => none
  else if attr.1 = "yoffset" then
    match parseI32 attr.2 with
    | some n => some { v with yoffset := n }
    | none => none
  else if attr.1 = "xadvance" then
    match parseI32 attr.2 with
    | some n => some { v with xadvance := n }
    | none => none
  else some v

/-- The whole attribute loop of the `Empty("char")` arm. -/
def runCharAttrs (v : CharVars) (attrs : List (String × String)) : Option CharVars :=
  match attrs with
  | [] => some v
  | a :: rest =>
    match applyCharAttr v a with
    | some w => runCharAttrs w rest
    | none => none

/-- The attribute loop of the `Empty("info")` arm: only `size` is read, its
value parsed as `i32` (failure propagates); other attributes are ignored. -/
def runInfoAttrs (sz : Int) (attrs : List (String × String)) : Option Int :=
  match attrs with
  | [] => some sz
  | a :: rest =>
    if a.1 = "size" then
      match parseI32 a.2 with
      | some n => runInfoAttrs n rest
      | none => none
    else runInfoAttrs sz rest

/-- Assemble the `Character` value inserted by the `Empty("char")` arm. -/
def charOfVars (v : CharVars) : Character :=
  ⟨⟨v.width, v.height⟩, ⟨v.x, v.y⟩, ⟨v.xoffset, v.yoffset⟩, v.xadvance⟩

/-- `BTreeMap<u32, Character>::insert`, on the association-list model kept
sorted by ascending key: inserting an existing key replaces its value. -/
def insertSorted (k : Nat) (v : Character) :
    List (Nat × Character) → List (Nat × Character)
  | [] => [(k, v)]
  | (k2, v2) :: rest =>
    if k < k2 then (k, v) :: (k2, v2) :: rest
    else if k = k2 then (k, v) :: rest
    else (k2, v2) :: insertSorted k v rest

/-- `BTreeMap::get` on the association-list model. -/
def lookupKey (k : Nat) : List (Nat × Character) → Option Character
  | [] => none
  | (k2, v2) :: rest => if k = k2 then some v2 else lookupKey k rest

/-- Keys of the map in iteration order. -/
def keysOf (l : List (Nat × Character)) : List Nat := l.map Prod.fst

/-- Decoder state threaded through the event loop of `parse_fnt`: the
`font_size` local, the `characters` map, and the messages written to standard
error by `eprintln!`. -/
structure FntState where
  fontSize : Int
  characters : List (Nat × Character)
  errLog : List String
  deriving DecidableEq, Repr

/-- Initial decoder state (`font_size = 0`, empty map, nothing logged). -/
def initState : FntState := ⟨0, [], []⟩

/-- Result of processing one event in the loop of `parse_fnt`: continue with
a new state, leave the loop (`break`), or return an error to the caller. -/
inductive StepOut where
  | cont (st : FntState)
  | halt (st : FntState)
  | fail
  deriving DecidableEq, Repr

/-- One iteration of the `parse_fnt` event loop, by the source's match arms:
`Eof` breaks; `Empty` named `char` runs the attribute loop and inserts the
record (attribute parse failure returns an error); `Empty` named `info` runs
the size loop; a tokenizer error is logged to standard error and breaks; any
other event is ignored. -/
def step (st : FntState) (ev : XmlEvent) : StepOut :=
  match ev with
  | .eof => .halt st
  | .empty name attrs =>
    if name = "char" then
      match runCharAttrs initCharVars attrs with
      | some v =>
        .cont { st with characters := insertSorted v.id (charOfVars v) st.characters }
      | none => .fail
    else if name = "info" then
      match runInfoAttrs st.fontSize attrs with
      | some sz => .cont { st with fontSize := sz }
      | none => .fail
    else .cont st
  | .err msg => .halt { st with errLog := st.errLog ++ ["Error parsing XML: " ++ msg] }
  | _ => .cont st

/-- Result of running the loop on a list of events: `more` when the list was
exhausted without a `break`, `stopped` when the loop broke (EOF or tokenizer
error), `failed` when an attribute parse error was returned. -/
inductive RunOut where
  | more (st : FntState)
  | stopped (st : FntState)
  | failed
  deriving DecidableEq, Repr

/-- The `parse_fnt` event loop over a list of events. -/
def runEvents (st : FntState) : List XmlEvent → RunOut
  | [] => .more st
  | ev :: rest =>
    match step st ev with
    | .cont st2 => runEvents st2 rest
    | .halt st2 => .stopped st2
    | .fail => .failed

/-- `parse_fnt` on an event stream: `some` final state on the `Ok` path
(including the log-and-break path for tokenizer errors), `none` on the `Err`
path (attribute parse failure). -/
def parse_fnt (events : List XmlEvent) : Option FntState :=
  match runEvents initState events with
  | .more st => some st
  | .stopped st => some st
  | .failed => none

/-- Uppercase hexadecimal digit of a value below 16. -/
def hexDigit (n : Nat) : Char :=
  if n < 10 then Char.ofNat (48 + n) else Char.ofNat (55 + n)

/-- Uppercase hexadecimal digits of `n`, most significant first, empty for
zero. -/
def hexChars (n : Nat) : List Char :=
  if h : n = 0 then [] else hexChars (n / 16) ++ [hexDigit (n % 16)]
  termination_by n
  decreasing_by exact Nat.div_lt_self (Nat.pos_of_ne_zero h) (by omega)

/-- Rust `format!` with `{:X}`: uppercase hexadecimal, no leading zeros. -/
def toHexUpper (n : Nat) : String :=
  if n = 0 then "0" else String.mk (hexChars n)

/-- Rust `std::char::from_u32`: `some` unless the value is a surrogate or
above `0x10FFFF`. -/
def charFromU32 (n : Nat) : Option Char :=
  if n < 55296 ∨ (57343 < n ∧ n < 1114112) then some (Char.ofNat n) else none

/-- Rust `char::is_control`: the Unicode `Cc` category, i.e. `U+0000` to
`U+001F` and `U+007F` to `U+009F`. -/
def charIsControl (c : Char) : Bool :=
  decide (c.toNat < 32 ∨ (127 ≤ c.toNat ∧ c.toNat ≤ 159))

/-- The `char_repr` computation of `format_output`: how a codepoint is
rendered as a Lua table key (source lines 113 to 122). -/
def char_repr (id : Nat) : String :=
  if id = 0 ∨ id = 13 then ""
  else
    match charFromU32 id with
    | some c =>
      if c = '"' then "\\\""
      else if c = '\\' then "\\\\"
      else if charIsControl c then "\\u\x7b" ++ toHexUpper id ++ "\x7d"
      else String.mk [c]
    | none => "\\u\x7b" ++ toHexUpper id ++ "\x7d"

/-- The four-space indentation unit of `format_output`. -/
def fourSpaces : String := "    "

/-- One `Characters` entry line emitted by `format_output`: eight spaces of
indentation, the escaped key, then atlas size, atlas position, draw offset
and advance. -/
def entryLine (id : Nat) (data : Character) : String :=
  fourSpaces ++ fourSpaces ++ "[\"" ++ char_repr id ++ "\"] = \x7b Vector2.new("
    ++ toString data.size.width ++ ", " ++ toString data.size.height
    ++ "), Vector2.new(" ++ toString data.position.x ++ ", " ++ toString data.position.y
    ++ "), Vector2.new(" ++ toString data.offset.x ++ ", " ++ toString data.offset.y
    ++ "), " ++ toString data.advance ++ " \x7d,\n"

/-- `format_output` (source lines 107 to 132): header with the font size,
one line per glyph in map iteration order, and the closing braces with one
trailing newline. -/
def format_output (font_size : Int) (font_data : List (Nat × Character)) : String :=
  let header := "return \x7b\n" ++ fourSpaces ++ "Size = " ++ toString font_size ++ ",\n"
    ++ fourSpaces ++ "Characters = \x7b\n"
  let body := font_data.foldl (fun acc kv => acc ++ entryLine kv.1 kv.2) header
  body ++ fourSpaces ++ "\x7d\n\x7d\n"

/-- Modelled from the spec: the XML tokenizer is supplied by the `quick_xml`
library, whose source is not part of this repository.  `takeUntilChar stop
cs` splits `cs` at the first occurrence of `stop`; the second component is
`none` when `stop` does not occur. -/
def takeUntilChar (stop : Char) : List Char → (List Char × Option (List Char))
  | [] => ([], none)
  | c :: rest =>
    if c = stop then ([], some rest)
    else
      let p := takeUntilChar stop rest
      (c :: p.1, p.2)

/-- Modelled from the spec: attribute syntax inside a tag, `name="value"`
pairs separated by spaces, as produced by the `quick_xml` attribute iterator
on well-formed input.  `none` on malformed attribute syntax. -/
def parseAttrList : Nat → List Char → Option (List (String × String))
  | 0, _ => none
  | _ + 1, [] => some []
  | fuel + 1, c :: rest =>
    if c = ' ' then parseAttrList fuel rest
    else
      let p := takeUntilChar '=' (c :: rest)
      match p.2 with
      | none => none
      | some cs2 =>
        match cs2 with
        | '"' :: cs3 =>
          let q := takeUntilChar '"' cs3
          match q.2 with
          | none => none
          | some cs4 =>
            match parseAttrList fuel cs4 with
            | some tailAttrs => some ((String.mk p.1, String.mk q.1) :: tailAttrs)
            | none => none
        | _ => none

/-- Modelled from the spec: classify the content between `<` and `>` as an
end tag, a self-closing (empty) element with attributes, or a start tag with
attributes, per the XML event model of section 2. -/
def parseTagContent (cs : List Char) : Option XmlEvent :=
  match cs with
  | '/' :: rest => some (.endTag (String.mk (rest.takeWhile (fun c => !(c == ' ')))))
  | _ =>
    let nm := cs.takeWhile (fun c => !(c == ' ' || c == '/'))
    let rest := cs.drop nm.length
    if nm = [] then none
    else if cs.getLast? = some '/' then
      match parseAttrList (rest.length + 1) rest.dropLast with
      | some attrs => some (.empty (String.mk nm) attrs)
      | none => none
    else
      match parseAttrList (rest.length + 1) rest with
      | some attrs => some (.start (String.mk nm) attrs)
      | none => none

/-- Modelled from the spec: the tokenizer loop.  Each step consumes at least
one character, so the fuel `length + 1` never runs out; a well-formedness
violation yields a terminal `err` event, after which no further events are
produced, and end of input yields a terminal `eof` event. -/
def tokenizeAux : Nat → List Char → List XmlEvent
  | 0, _ => [.err "out of fuel"]
  | _ + 1, [] => [.eof]
  | fuel + 1, '<' :: rest =>
    let p := takeUntilChar '>' rest
    match p.2 with
    | none => [.err "tag not closed"]
    | some cs2 =>
      match parseTagContent p.1 with
      | some ev => ev :: tokenizeAux fuel cs2
      | none => [.err "malformed tag"]
  | fuel + 1, c :: rest =>
    let txt := List.takeWhile (fun d => !(d == '<')) (c :: rest)
    let rem := List.drop txt.length (c :: rest)
    .text (String.mk txt) :: tokenizeAux fuel rem

/-- Modelled from the spec: the XML tokenizer over a whole document. -/
def tokenize (s : String) : List XmlEvent :=
  tokenizeAux (s.data.length + 1) s.data

/-- The core pipeline of section 6, `convert`: tokenize, decode with
`parse_fnt`, then emit with `format_output`; `none` on a decoder error. -/
def convert (input : String) : Option String :=
  match parse_fnt (tokenize input) with
  | some st => some (format_output st.fontSize st.characters)
  | none => none

/-- The minimal end-to-end input document of spec section 8, scenario 1. -/
def minimalInput : String :=
  "<font><info size=\"16\"/><chars><char id=\"65\" x=\"0\" y=\"0\" width=\"8\" height=\"16\" xoffset=\"0\" yoffset=\"0\" xadvance=\"8\"/></chars></font>"

/-- The expected output text for `minimalInput`. -/
def minimalOutput : String :=
  "return \x7b\n    Size = 16,\n    Characters = \x7b\n        [\"A\"] = \x7b Vector2.new(8, 16), Vector2.new(0, 0), Vector2.new(0, 0), 8 \x7d,\n    \x7d\n\x7d\n"

/-- The key-rendering table of spec section 4.2, row by row in the spec's
order: codepoints 0 and 13 give the empty string; the double quote gives an
escaped quote; the backslash gives an escaped backslash; any other `Cc`
control character gives an uppercase-hexadecimal escape; a value that is not
a Unicode scalar value gives the same escape; any other scalar value is the
character itself. -/
def specKeyString (c : Nat) : String :=
  if c = 0 ∨ c = 13 then ""
  else if c = 34 then "\\\""
  else if c = 92 then "\\\\"
  else if c < 32 ∨ (127 ≤ c ∧ c ≤ 159) then "\\u\x7b" ++ toHexUpper c ++ "\x7d"
  else if ¬ (c < 55296 ∨ (57343 < c ∧ c < 1114112)) then "\\u\x7b" ++ toHexUpper c ++ "\x7d"
  else String.mk [Char.ofNat c]

/-- The eight attribute names the `Empty("char")` arm recognises. -/
def recognizedCharKeys : List String :=
  ["id", "x", "y", "width", "height", "xoffset", "yoffset", "xadvance"]

/-- The seven `char` attribute names parsed as `i32` (all but `id`). -/
def i32CharKeys : List String :=
  ["x", "y", "width", "height", "xoffset", "yoffset", "xadvance"]

/-- A `char` attribute that is recognised but whose value fails to parse as
an integer of the expected type. -/
def badCharAttr (a : String × String) : Prop :=
  (a.1 = "id" ∧ parseU32 a.2 = none) ∨ (a.1 ∈ i32CharKeys ∧ parseI32 a.2 = none)

/-- An `info` attribute that is recognised but whose value fails to parse. -/
def badInfoAttr (a : String × String) : Prop :=
  a.1 = "size" ∧ parseI32 a.2 = none

/-- Events that the decoder loop ignores without touching its state: start
tags, end tags, text, and empty elements other than `char` and `info`. -/
def neutralEvent : XmlEvent → Prop
  | .start _ _ => True
  | .empty name _ => name ≠ "char" ∧ name ≠ "info"
  | .endTag _ => True
  | .text _ => True
  | .err _ => False
  | .eof => False

/-- The event is an empty `char` element whose attribute loop succeeds and
yields a record keyed by codepoint `k`. -/
def insertsId (ev : XmlEvent) (k : Nat) : Prop :=
  ∃ attrs v, ev = XmlEvent.empty "char" attrs ∧
    runCharAttrs initCharVars attrs = some v ∧ v.id = k

/-! Helper lemmas about the map model -/

theorem mem_keysOf_insertSorted (k : Nat) (v : Character) :
    ∀ l x, x ∈ keysOf (insertSorted k v l) → x = k ∨ x ∈ keysOf l := by
  intro l
  induction l with
  | nil =>
    intro x hx
    simp [insertSorted, keysOf] at hx
    exact Or.inl hx
  | cons hd tl ih =>
    intro x hx
    obtain ⟨k2, v2⟩ := hd
    simp only [insertSorted] at hx
    by_cases h1 : k < k2
    · rw [if_pos h1] at hx
      simp only [keysOf, List.map_cons, List.mem_cons] at hx ⊢
      tauto
    · rw [if_neg h1] at hx
      by_cases h2 : k = k2
      · rw [if_pos h2] at hx
        simp only [keysOf, List.map_cons, List.mem_cons] at hx ⊢
        tauto
      · rw [if_neg h2] at hx
        simp only [keysOf, List.map_cons, List.mem_cons] at hx ⊢
        rcases hx with h | h
        · tauto
        · rcases ih x (by simpa [keysOf] using h) with h3 | h3 <;> tauto

theorem pairwise_keysOf_insertSorted (k : Nat) (v : Character) :
    ∀ l, List.Pairwise (fun a b => a < b) (keysOf l) →
      List.Pairwise (fun a b => a < b) (keysOf (insertSorted k v l)) := by
  intro l
  induction l with
  | nil =>
    intro _
    simp [insertSorted, keysOf]
  | cons hd tl ih =>
    intro hp
    obtain ⟨k2, v2⟩ := hd
    simp only [keysOf, List.map_cons, List.pairwise_cons] at hp
    obtain ⟨hk2, htl⟩ := hp
    simp only [insertSorted]
    by_cases h1 : k < k2
    · rw [if_pos h1]
      simp only [keysOf, List.map_cons, List.pairwise_cons]
      refine ⟨?_, ?_, htl⟩
      · intro x hx
        rcases List.mem_cons.mp hx with h | h
        · exact h ▸ h1
        · exact lt_trans h1 (hk2 x h)
      · exact hk2
    · rw [if_neg h1]
      by_cases h2 : k = k2
      · rw [if_pos h2]
        simp only [keysOf, List.map_cons, List.pairwise_cons]
        exact ⟨fun x hx => h2 ▸ hk2 x hx, htl⟩
      · rw [if_neg h2]
        simp only [keysOf, List.map_cons, List.pairwise_cons]
        refine ⟨?_, ih htl⟩
        intro x hx
        rcases mem_keysOf_insertSorted k v tl x hx with h | h
        · subst h
          omega
        · exact hk2 x h

theorem lookupKey_insertSorted_self (k : Nat) (v : Character) :
    ∀ l, lookupKey k (insertSorted k v l) = some v := by
  intro l
  induction l with
  | nil => simp [insertSorted, lookupKey]
  | cons hd tl ih =>
    obtain ⟨k2, v2⟩ := hd
    simp only [insertSorted]
    by_cases h1 : k < k2
    · rw [if_pos h1]
      simp [lookupKey]
    · rw [if_neg h1]
      by_cases h2 : k = k2
      · rw [if_pos h2]
        simp [lookupKey]
      · rw [if_neg h2]
        simp [lookupKey, h2, ih]

theorem lookupKey_insertSorted_ne (j k : Nat) (v : Character) (hjk : j ≠ k) :
    ∀ l, lookupKey j (insertSorted k v l) = lookupKey j l := by
  intro l
  induction l with
  | nil => simp [insertSorted, lookupKey, hjk]
  | cons hd tl ih =>
    obtain ⟨k2, v2⟩ := hd
    simp only [insertSorted]
    by_cases h1 : k < k2
    · rw [if_pos h1]
      simp [lookupKey, hjk]
    · rw [if_neg h1]
      by_cases h2 : k = k2
      · rw [if_pos h2]
        subst h2
        simp [lookupKey, hjk]
      · rw [if_neg h2]
        by_cases h3 : j = k2
        · simp [lookupKey, h3]
        · simp [lookupKey, h3, ih]

theorem mem_keysOf_of_lookupKey (k : Nat) :
    ∀ l c, lookupKey k l = some c → k ∈ keysOf l := by
  intro l
  induction l with
  | nil => intro c hc; simp [lookupKey] at hc
  | cons hd tl ih =>
    intro c hc
    obtain ⟨k2, v2⟩ := hd
    simp only [lookupKey] at hc
    by_cases h : k = k2
    · simp [keysOf, h]
    · rw [if_neg h] at hc
      simp only [keysOf, List.map_cons, List.mem_cons]
      exact Or.inr (ih c hc)

/-! Helper lemmas about the decoder loop -/

theorem runEvents_append (l1 l2 : List XmlEvent) :
    ∀ st, runEvents st (l1 ++ l2) =
      match runEvents st l1 with
      | .more st2 => runEvents st2 l2
      | .stopped st2 => .stopped st2
      | .failed => .failed := by
  induction l1 with
  | nil => intro st; simp [runEvents]
  | cons ev rest ih =>
    intro st
    simp only [List.cons_append, runEvents]
    cases step st ev with
    | cont st2 => exact ih st2
    | halt st2 => rfl
    | fail => rfl

theorem step_characters_of_not_insertsId (st : FntState) (ev : XmlEvent) (k : Nat)
    (hne : ¬ insertsId ev k) :
    ∀ st2, step st ev = StepOut.cont st2 ∨ step st ev = StepOut.halt st2 →
      lookupKey k st2.characters = lookupKey k st.characters := by
  intro st2 h2
  cases ev with
  | eof =>
    rcases h2 with h | h
    · simp [step] at h
    · simp only [step] at h
      cases h
      rfl
  | start nm attrs =>
    rcases h2 with h | h
    · simp only [step] at h
      cases h
      rfl
    · simp [step] at h
  | endTag nm =>
    rcases h2 with h | h
    · simp only [step] at h
      cases h
      rfl
    · simp [step] at h
  | text s =>
    rcases h2 with h | h
    · simp only [step] at h
      cases h
      rfl
    · simp [step] at h
  | err msg =>
    rcases h2 with h | h
    · simp [step] at h
    · simp only [step] at h
      cases h
      rfl
  | empty nm attrs =>
    by_cases hc : nm = "char"
    · subst hc
      cases hr : runCharAttrs initCharVars attrs with
      | some v =>
        have hvk : v.id ≠ k := by
          intro he
          exact hne ⟨attrs, v, rfl, hr, he⟩
        rcases h2 with h | h
        · simp only [step, if_pos rfl, hr] at h
          cases h
          exact lookupKey_insertSorted_ne k v.id (charOfVars v) (fun he => hvk he.symm) st.characters
        · simp [step, hr] at h
      | none =>
        rcases h2 with h | h <;> simp [step, hr] at h
    · by_cases hi : nm = "info"
      · subst hi
        cases hr : runInfoAttrs st.fontSize attrs with
        | some sz =>
          rcases h2 with h | h
          · simp only [step, if_neg hc, if_pos rfl, hr] at h
            cases h
            rfl
          · simp [step, hc, hr] at h
        | none =>
          rcases h2 with h | h <;> simp [step, hc, hr] at h
      · rcases h2 with h | h
        · simp only [step, if_neg hc, if_neg hi] at h
          cases h
          rfl
        · simp [step, hc, hi] at h

theorem runEvents_lookup_preserve (k : Nat) :
    ∀ evs st st2, (∀ ev ∈ evs, ¬ insertsId ev k) →
      (runEvents st evs = RunOut.more st2 ∨ runEvents st evs = RunOut.stopped st2) →
      lookupKey k st2.characters = lookupKey k st.characters := by
  intro evs
  induction evs with
  | nil =>
    intro st st2 _ h
    rcases h with h | h
    · simp only [runEvents] at h
      cases h
      rfl
    · simp [runEvents] at h
  | cons ev rest ih =>
    intro st st2 hno h
    cases hs : step st ev with
    | cont st3 =>
      have hr : runEvents st (ev :: rest) = runEvents st3 rest := by
        simp [runEvents, hs]
      rw [hr] at h
      have h1 := ih st3 st2 (fun e he => hno e (List.mem_cons_of_mem _ he)) h
      rw [h1]
      exact step_characters_of_not_insertsId st ev k
        (hno ev (List.mem_cons_self ev rest)) st3 (Or.inl hs)
    | halt st3 =>
      have hr : runEvents st (ev :: rest) = RunOut.stopped st3 := by
        simp [runEvents, hs]
      rw [hr] at h
      rcases h with h | h
      · cases h
      · cases h
        exact step_characters_of_not_insertsId st ev k
          (hno ev (List.mem_cons_self ev rest)) st2 (Or.inr hs)
    | fail =>
      have hr : runEvents st (ev :: rest) = RunOut.failed := by
        simp [runEvents, hs]
      rw [hr] at h
      rcases h with h | h <;> cases h

theorem step_characters_pairwise (st : FntState) (ev : XmlEvent)
    (hp : List.Pairwise (fun a b => a < b) (keysOf st.characters)) :
    ∀ st2, step st ev = StepOut.cont st2 ∨ step st ev = StepOut.halt st2 →
      List.Pairwise (fun a b => a < b) (keysOf st2.characters) := by
  intro st2 h2
  cases ev with
  | eof =>
    rcases h2 with h | h
    · simp [step] at h
    · simp only [step] at h
      cases h
      exact hp
  | start nm attrs =>
    rcases h2 with h | h
    · simp only [step] at h
      cases h
      exact hp
    · simp [step] at h
  | endTag nm =>
    rcases h2 with h | h
    · simp only [step] at h
      cases h
      exact hp
    · simp [step] at h
  | text s =>
    rcases h2 with h | h
    · simp only [step] at h
      cases h
      exact hp
    · simp [step] at h
  | err msg =>
    rcases h2 with h | h
    · simp [step] at h
    · simp only [step] at h
      cases h
      exact hp
  | empty nm attrs =>
    by_cases hc : nm = "char"
    · subst hc
      cases hr : runCharAttrs initCharVars attrs with
      | some v =>
        rcases h2 with h | h
        · simp only [step, if_pos rfl, hr] at h
          cases h
          exact pairwise_keysOf_insertSorted v.id (charOfVars v) st.characters hp
        · simp [step, hr] at h
      | none =>
        rcases h2 with h | h <;> simp [step, hr] at h
    · by_cases hi : nm = "info"
      · subst hi
        cases hr : runInfoAttrs st.fontSize attrs with
        | some sz =>
          rcases h2 with h | h
          · simp only [step, if_neg hc, if_pos rfl, hr] at h
            cases h
            exact hp
          · simp [step, hc, hr] at h
        | none =>
          rcases h2 with h | h <;> simp [step, hc, hr] at h
      · rcases h2 with h | h
        · simp only [step, if_neg hc, if_neg hi] at h
          cases h
          exact hp
        · simp [step, hc, hi] at h

theorem runEvents_pairwise (evs : List XmlEvent) :
    ∀ st st2, List.Pairwise (fun a b => a < b) (keysOf st.characters) →
      (runEvents st evs = RunOut.more st2 ∨ runEvents st evs = RunOut.stopped st2) →
      List.Pairwise (fun a b => a < b) (keysOf st2.characters) := by
  induction evs with
  | nil =>
    intro st st2 hp h
    rcases h with h | h
    · simp only [runEvents] at h
      cases h
      exact hp
    · simp [runEvents] at h
  | cons ev rest ih =>
    intro st st2 hp h
    cases hs : step st ev with
    | cont st3 =>
      have hr : runEvents st (ev :: rest) = runEvents st3 rest := by
        simp [runEvents, hs]
      rw [hr] at h
      exact ih st3 st2 (step_characters_pairwise st ev hp st3 (Or.inl hs)) h
    | halt st3 =>
      have hr : runEvents st (ev :: rest) = RunOut.stopped st3 := by
        simp [runEvents, hs]
      rw [hr] at h
      rcases h with h | h
      · cases h
      · cases h
        exact step_characters_pairwise st ev hp st2 (Or.inr hs)
    | fail =>
      have hr : runEvents st (ev :: rest) = RunOut.failed := by
        simp [runEvents, hs]
      rw [hr] at h
      rcases h with h | h <;> cases h

theorem step_fontSize_preserve (st : FntState) (ev : XmlEvent)
    (hni : ∀ attrs, ev ≠ XmlEvent.empty "info" attrs) :
    ∀ st2, step st ev = StepOut.cont st2 ∨ step st ev = StepOut.halt st2 →
      st2.fontSize = st.fontSize := by
  intro st2 h2
  cases ev with
  | eof =>
    rcases h2 with h | h
    · simp [step] at h
    · simp only [step] at h
      cases h
      rfl
  | start nm attrs =>
    rcases h2 with h | h
    · simp only [step] at h
      cases h
      rfl
    · simp [step] at h
  | endTag nm =>
    rcases h2 with h | h
    · simp only [step] at h
      cases h
      rfl
    · simp [step] at h
  | text s =>
    rcases h2 with h | h
    · simp only [step] at h
      cases h
      rfl
    · simp [step] at h
  | err msg =>
    rcases h2 with h | h
    · simp [step] at h
    · simp only [step] at h
      cases h
      rfl
  | empty nm attrs =>
    by_cases hc : nm = "char"
    · subst hc
      cases hr : runCharAttrs initCharVars attrs with
      | some v =>
        rcases h2 with h | h
        · simp only [step, if_pos rfl, hr] at h
          cases h
          rfl
        · simp [step, hr] at h
      | none =>
        rcases h2 with h | h <;> simp [step, hr] at h
    · have hi : nm ≠ "info" := by
        intro he
        exact hni attrs (by rw [he])
      rcases h2 with h | h
      · simp only [step, if_neg hc, if_neg hi] at h
        cases h
        rfl
      · simp [step, hc, hi] at h

theorem runEvents_fontSize_preserve (evs : List XmlEvent) :
    ∀ st st2, (∀ attrs, XmlEvent.empty "info" attrs ∉ evs) →
      (runEvents st evs = RunOut.more st2 ∨ runEvents st evs = RunOut.stopped st2) →
      st2.fontSize = st.fontSize := by
  induction evs with
  | nil =>
    intro st st2 _ h
    rcases h with h | h
    · simp only [runEvents] at h
      cases h
      rfl
    · simp [runEvents] at h
  | cons ev rest ih =>
    intro st st2 hni h
    have hev : ∀ attrs, ev ≠ XmlEvent.empty "info" attrs := by
      intro attrs he
      exact hni attrs (he ▸ List.mem_cons_self ev rest)
    cases hs : step st ev with
    | cont st3 =>
      have hr : runEvents st (ev :: rest) = runEvents st3 rest := by
        simp [runEvents, hs]
      rw [hr] at h
      have h1 := ih st3 st2
        (fun attrs hmem => hni attrs (List.mem_cons_of_mem _ hmem)) h
      rw [h1]
      exact step_fontSize_preserve st ev hev st3 (Or.inl hs)
    | halt st3 =>
      have hr : runEvents st (ev :: rest) = RunOut.stopped st3 := by
        simp [runEvents, hs]
      rw [hr] at h
      rcases h with h | h
      · cases h
      · cases h
        exact step_fontSize_preserve st ev hev st2 (Or.inr hs)
    | fail =>
      have hr : runEvents st (ev :: rest) = RunOut.failed := by
        simp [runEvents, hs]
      rw [hr] at h
      rcases h with h | h <;> cases h

theorem step_neutral (ev : XmlEvent) (hn : neutralEvent ev) :
    ∀ st, step st ev = StepOut.cont st := by
  intro st
  cases ev with
  | eof => exact absurd hn (by simp [neutralEvent])
  | err msg => exact absurd hn (by simp [neutralEvent])
  | start nm attrs => rfl
  | endTag nm => rfl
  | text s => rfl
  | empty nm attrs =>
    obtain ⟨h1, h2⟩ := hn
    simp [step, h1, h2]

theorem runEvents_insert_neutral (ev : XmlEvent) (hn : neutralEvent ev) :
    ∀ l1 l2 st, runEvents st (l1 ++ ev :: l2) = runEvents st (l1 ++ l2) := by
  intro l1 l2 st
  rw [runEvents_append, runEvents_append]
  cases runEvents st l1 with
  | more st2 =>
    have : runEvents st2 (ev :: l2) = runEvents st2 l2 := by
      simp [runEvents, step_neutral ev hn st2]
    simpa using this
  | stopped st2 => rfl
  | failed => rfl

theorem runEvents_step_congr (ev1 ev2 : XmlEvent)
    (hstep : ∀ s, step s ev1 = step s ev2) :
    ∀ l1 l2 st, runEvents st (l1 ++ ev1 :: l2) = runEvents st (l1 ++ ev2 :: l2) := by
  intro l1 l2 st
  rw [runEvents_append, runEvents_append]
  cases runEvents st l1 with
  | more st2 => simp [runEvents, hstep st2]
  | stopped st2 => rfl
  | failed => rfl

/-! Helper lemmas about the attribute loops -/

theorem applyCharAttr_unrecognized (v : CharVars) (nm val : String)
    (h : nm ∉ recognizedCharKeys) : applyCharAttr v (nm, val) = some v := by
  simp only [recognizedCharKeys, List.mem_cons, List.mem_singleton, not_or] at h
  obtain ⟨h1, h2, h3, h4, h5, h6, h7, h8⟩ := h
  simp [applyCharAttr, h1, h2, h3, h4, h5, h6, h7, h8]

theorem runCharAttrs_skip_unrecognized (nm val : String)
    (h : nm ∉ recognizedCharKeys) :
    ∀ a1 a2 v, runCharAttrs v (a1 ++ (nm, val) :: a2) = runCharAttrs v (a1 ++ a2) := by
  intro a1
  induction a1 with
  | nil =>
    intro a2 v
    simp [runCharAttrs, applyCharAttr_unrecognized v nm val h]
  | cons a rest ih =>
    intro a2 v
    simp only [List.cons_append, runCharAttrs]
    cases applyCharAttr v a with
    | some w => exact ih a2 w
    | none => rfl

theorem applyCharAttr_bad (v : CharVars) (a : String × String)
    (h : badCharAttr a) : applyCharAttr v a = none := by
  obtain ⟨k, val⟩ := a
  rcases h with ⟨h1, h2⟩ | ⟨h1, h2⟩
  · simp only at h1 h2
    simp [applyCharAttr, h1, h2]
  · simp only [i32CharKeys, List.mem_cons, List.not_mem_nil, or_false] at h1
    simp only at h2
    rcases h1 with h1 | h1 | h1 | h1 | h1 | h1 | h1 <;> simp [applyCharAttr, h1, h2]

theorem runCharAttrs_bad (attrs : List (String × String))
    (h : ∃ a ∈ attrs, badCharAttr a) :
    ∀ v, runCharAttrs v attrs = none := by
  induction attrs with
  | nil => exact absurd h (by simp)
  | cons a rest ih =>
    intro v
    obtain ⟨b, hb, hbad⟩ := h
    rcases List.mem_cons.mp hb with hb1 | hb1
    · subst hb1
      simp [runCharAttrs, applyCharAttr_bad v b hbad]
    · simp only [runCharAttrs]
      cases applyCharAttr v a with
      | some w => exact ih ⟨b, hb1, hbad⟩ w
      | none => rfl

theorem runInfoAttrs_bad (attrs : List (String × String))
    (h : ∃ a ∈ attrs, badInfoAttr a) :
    ∀ sz, runInfoAttrs sz attrs = none := by
  induction attrs with
  | nil => exact absurd h (by simp)
  | cons a rest ih =>
    intro sz
    obtain ⟨b, hb, hbad⟩ := h
    rcases List.mem_cons.mp hb with hb1 | hb1
    · subst hb1
      obtain ⟨h1, h2⟩ := hbad
      simp [runInfoAttrs, h1, h2]
    · simp only [runInfoAttrs]
      by_cases hk : a.1 = "size"
      · rw [if_pos hk]
        cases parseI32 a.2 with
        | some n => exact ih ⟨b, hb1, hbad⟩ n
        | none => rfl
      · rw [if_neg hk]
        exact ih ⟨b, hb1, hbad⟩ sz

theorem applyCharAttr_id_preserved (v : CharVars) (a : String × String)
    (ha : a.1 ≠ "id") :
    ∀ w, applyCharAttr v a = some w → w.id = v.id := by
  intro w hw
  simp only [applyCharAttr, if_neg ha] at hw
  split_ifs at hw <;>
    first
      | (split at hw
         · cases hw
           rfl
         · cases hw)
      | (cases hw
         rfl)

theorem runCharAttrs_id_preserved (attrs : List (String × String))
    (h : "id" ∉ attrs.map Prod.fst) :
    ∀ v w, runCharAttrs v attrs = some w → w.id = v.id := by
  induction attrs with
  | nil =>
    intro v w hw
    simp only [runCharAttrs] at hw
    cases hw
    rfl
  | cons a rest ih =>
    intro v w hw
    simp only [List.map_cons, List.mem_cons, not_or] at h
    obtain ⟨h1, h2⟩ := h
    simp only [runCharAttrs] at hw
    cases ha : applyCharAttr v a with
    | some u =>
      rw [ha] at hw
      have := ih h2 u w hw
      rw [this]
      exact applyCharAttr_id_preserved v a (fun he => h1 he.symm) u ha
    | none =>
      rw [ha] at hw
      cases hw

/-- Round trip: `Char.ofNat` at a valid Unicode scalar value keeps the
numeric value. -/
theorem charOfNat_toNat (n : Nat) (h : n.isValidChar) : (Char.ofNat n).toNat = n := by
  simp [Char.ofNat, h, Char.toNat, Char.ofNatAux, UInt32.toNat, BitVec.toNat_ofNatLt]

/-! Claim theorems -/

set_option maxRecDepth 20000

/-- Claim C1: the conversion pipeline (`parse_fnt` followed by
`format_output`) on the minimal input document produces exactly the expected
text, with four-space indentation, the tuple order atlas size, atlas
position, draw offset, advance, a trailing comma after the entry, and one
trailing newline at the end of the file. -/
theorem minimal_document_exact_output : convert minimalInput = some minimalOutput := by
  rfl

/-- Claim C2: for every codepoint below `2^32`, the key rendering of
`format_output` agrees with the spec's key-rendering table row by row:
0 and 13 give the empty string, 34 an escaped quote, 92 an escaped
backslash, every other `Cc` control character and every non-scalar value an
uppercase-hexadecimal escape without leading zeros, and every other scalar
value the character itself. -/
theorem char_repr_eq_specKeyString (c : Nat) (hc : c < 4294967296) :
    char_repr c = specKeyString c := by
  by_cases h013 : c = 0 ∨ c = 13
  · simp [char_repr, specKeyString, h013]
  by_cases h34 : c = 34
  · subst h34
    rfl
  by_cases h92 : c = 92
  · subst h92
    rfl
  by_cases hval : c < 55296 ∨ (57343 < c ∧ c < 1114112)
  · have hvc : Nat.isValidChar c := hval
    have hrt : (Char.ofNat c).toNat = c := charOfNat_toNat c hvc
    have hq : ¬ (Char.ofNat c = '"') := by
      intro he
      apply h34
      rw [← hrt, he]
      rfl
    have hb : ¬ (Char.ofNat c = '\\') := by
      intro he
      apply h92
      rw [← hrt, he]
      rfl
    have hctl : charIsControl (Char.ofNat c) =
        decide (c < 32 ∨ (127 ≤ c ∧ c ≤ 159)) := by
      simp only [charIsControl, hrt]
    by_cases hcc : c < 32 ∨ (127 ≤ c ∧ c ≤ 159)
    · simp only [char_repr, specKeyString, charFromU32, if_neg h013, if_pos hval,
        if_neg h34, if_neg h92, if_pos hcc, hctl, if_neg hq, if_neg hb]
      simp [hcc]
    · simp only [char_repr, specKeyString, charFromU32, if_neg h013, if_pos hval,
        if_neg h34, if_neg h92, if_neg hcc, hctl, if_neg hq, if_neg hb,
        if_neg (not_not_intro hval)]
      simp [hcc]
  · have hcc : ¬ (c < 32 ∨ (127 ≤ c ∧ c ≤ 159)) := by omega
    simp only [char_repr, specKeyString, charFromU32, if_neg h013, if_neg hval,
      if_neg h34, if_neg h92, if_neg hcc, if_pos hval]

/-- Claim C3: for every decoded font, the glyph keys of the map that
`format_output` iterates over in list order are strictly ascending,
whatever the order of the `char` elements in the input. -/
theorem glyph_keys_strictly_ascending (events : List XmlEvent) (st : FntState)
    (h : parse_fnt events = some st) :
    List.Pairwise (fun a b => a < b) (keysOf st.characters) := by
  cases hr : runEvents initState events with
  | more st2 =>
    simp only [parse_fnt, hr, Option.some.injEq] at h
    subst h
    exact runEvents_pairwise events initState st2 (by simp [initState, keysOf]) (Or.inl hr)
  | stopped st2 =>
    simp only [parse_fnt, hr, Option.some.injEq] at h
    subst h
    exact runEvents_pairwise events initState st2 (by simp [initState, keysOf]) (Or.inr hr)
  | failed =>
    simp [parse_fnt, hr] at h

/-- Claim C4: when the tokenizer reports a well-formedness violation,
`parse_fnt` stops at the offending event (the events `l2` after it do not
influence the result), appends the diagnostic to the standard error log, and
still returns a successful result holding the font size and all glyph
records accumulated before that point. -/
theorem malformed_xml_best_effort (l1 l2 : List XmlEvent) (st1 : FntState)
    (msg : String) (h1 : runEvents initState l1 = RunOut.more st1) :
    parse_fnt (l1 ++ XmlEvent.err msg :: l2) =
      some { st1 with errLog := st1.errLog ++ ["Error parsing XML: " ++ msg] } := by
  simp only [parse_fnt, runEvents_append, h1]
  simp [runEvents, step]

/-- Claim C5: a recognized attribute (one of the eight on an empty `char`
element, or `size` on an empty `info` element) whose textual value does not
parse as an integer of the expected type makes `parse_fnt` return an error
to the caller. -/
theorem attr_parse_failure_fatal (l1 l2 : List XmlEvent) (st1 : FntState)
    (name : String) (attrs : List (String × String))
    (h1 : runEvents initState l1 = RunOut.more st1)
    (hbad : (name = "char" ∧ ∃ a ∈ attrs, badCharAttr a) ∨
            (name = "info" ∧ ∃ a ∈ attrs, badInfoAttr a)) :
    parse_fnt (l1 ++ XmlEvent.empty name attrs :: l2) = none := by
  simp only [parse_fnt, runEvents_append, h1]
  rcases hbad with ⟨hn, hb⟩ | ⟨hn, hb⟩
  · subst hn
    simp [runEvents, step, runCharAttrs_bad attrs hb initCharVars]
  · subst hn
    simp [runEvents, step, runInfoAttrs_bad attrs hb st1.fontSize]

/-- Claim C6: when an input contains several `char` elements with the same
id, the decoded map holds exactly one record for that codepoint, namely the
metrics of the last such element in document order. -/
theorem duplicate_codepoint_last_wins (l1 l2 : List XmlEvent)
    (attrs : List (String × String)) (v : CharVars) (st1 st : FntState)
    (hl1 : runEvents initState l1 = RunOut.more st1)
    (hattrs : runCharAttrs initCharVars attrs = some v)
    (hlast : ∀ attrs2 v2, XmlEvent.empty "char" attrs2 ∈ l2 →
      runCharAttrs initCharVars attrs2 = some v2 → v2.id ≠ v.id)
    (hp : parse_fnt (l1 ++ XmlEvent.empty "char" attrs :: l2) = some st) :
    lookupKey v.id st.characters = some (charOfVars v) ∧
    List.count v.id (keysOf st.characters) = 1 := by
  have hrun : runEvents initState (l1 ++ XmlEvent.empty "char" attrs :: l2) =
      runEvents { st1 with
        characters := insertSorted v.id (charOfVars v) st1.characters } l2 := by
    rw [runEvents_append, hl1]
    simp [runEvents, step, hattrs]
  have hnoins : ∀ ev ∈ l2, ¬ insertsId ev v.id := by
    intro ev hev hins
    obtain ⟨attrs2, v2, he, hr2, hid⟩ := hins
    subst he
    exact hlast attrs2 v2 hev hr2 hid
  have hpw0 : List.Pairwise (fun a b => a < b) (keysOf initState.characters) := by
    simp [initState, keysOf]
  simp only [parse_fnt, hrun] at hp
  cases hr2 : runEvents { st1 with
      characters := insertSorted v.id (charOfVars v) st1.characters } l2 with
  | more stf =>
    simp only [hr2, Option.some.injEq] at hp
    subst hp
    have hlk := runEvents_lookup_preserve v.id l2 _ stf hnoins (Or.inl hr2)
    have hlk2 : lookupKey v.id stf.characters = some (charOfVars v) := by
      rw [hlk]
      exact lookupKey_insertSorted_self v.id (charOfVars v) st1.characters
    refine ⟨hlk2, ?_⟩
    have hpw : List.Pairwise (fun a b => a < b) (keysOf stf.characters) := by
      refine runEvents_pairwise (l1 ++ XmlEvent.empty "char" attrs :: l2)
        initState stf hpw0 (Or.inl ?_)
      rw [hrun, hr2]
    have hnd : (keysOf stf.characters).Nodup :=
      hpw.imp fun hab => Nat.ne_of_lt hab
    exact List.count_eq_one_of_mem hnd (mem_keysOf_of_lookupKey v.id _ _ hlk2)
  | stopped stf =>
    simp only [hr2, Option.some.injEq] at hp
    subst hp
    have hlk := runEvents_lookup_preserve v.id l2 _ stf hnoins (Or.inr hr2)
    have hlk2 : lookupKey v.id stf.characters = some (charOfVars v) := by
      rw [hlk]
      exact lookupKey_insertSorted_self v.id (charOfVars v) st1.characters
    refine ⟨hlk2, ?_⟩
    have hpw : List.Pairwise (fun a b => a < b) (keysOf stf.characters) := by
      refine runEvents_pairwise (l1 ++ XmlEvent.empty "char" attrs :: l2)
        initState stf hpw0 (Or.inr ?_)
      rw [hrun, hr2]
    have hnd : (keysOf stf.characters).Nodup :=
      hpw.imp fun hab => Nat.ne_of_lt hab
    exact List.count_eq_one_of_mem hnd (mem_keysOf_of_lookupKey v.id _ _ hlk2)
  | failed =>
    simp [hr2] at hp

/-- Claim C7: absent `char` attributes default to 0: an empty `char`
element carrying only an `id` yields the record with all five numeric
fields 0; and when no empty `info` element occurs in the input, a
successful decode reports font size 0 (absence of `info` is not an
error). -/
theorem absent_attributes_default_zero :
    (∀ s n, parseU32 s = some n →
      runCharAttrs initCharVars [("id", s)] = some ⟨n, 0, 0, 0, 0, 0, 0, 0⟩ ∧
      charOfVars ⟨n, 0, 0, 0, 0, 0, 0, 0⟩ = ⟨⟨0, 0⟩, ⟨0, 0⟩, ⟨0, 0⟩, 0⟩) ∧
    (∀ events st, (∀ attrs, XmlEvent.empty "info" attrs ∉ events) →
      parse_fnt events = some st → st.fontSize = 0) := by
  constructor
  · intro s n hs
    refine ⟨?_, rfl⟩
    simp [runCharAttrs, applyCharAttr, hs, initCharVars]
  · intro events st hni hp
    cases hr : runEvents initState events with
    | more st2 =>
      simp only [parse_fnt, hr, Option.some.injEq] at hp
      subst hp
      have := runEvents_fontSize_preserve events initState st2 hni (Or.inl hr)
      simpa [initState] using this
    | stopped st2 =>
      simp only [parse_fnt, hr, Option.some.injEq] at hp
      subst hp
      have := runEvents_fontSize_preserve events initState st2 hni (Or.inr hr)
      simpa [initState] using this
    | failed =>
      simp [parse_fnt, hr] at hp

/-- Claim C8: the conversion is deterministic: the output depends only on
the input text, so converting equal inputs yields byte-identical outputs. -/
theorem conversion_deterministic (s t : String) (h : s = t) :
    convert s = convert t := by
  rw [h]

/-- Claim C9: adding an unrecognized attribute to a `char` element, or an
unrelated element (any start tag, end tag, text node, or an empty element
not named `char` or `info`), anywhere in the event stream, does not change
the result of the conversion. -/
theorem unknown_attr_element_tolerance :
    (∀ l1 l2 a1 a2 nm val, nm ∉ recognizedCharKeys →
      parse_fnt (l1 ++ XmlEvent.empty "char" (a1 ++ (nm, val) :: a2) :: l2) =
      parse_fnt (l1 ++ XmlEvent.empty "char" (a1 ++ a2) :: l2)) ∧
    (∀ l1 l2 ev, neutralEvent ev →
      parse_fnt (l1 ++ ev :: l2) = parse_fnt (l1 ++ l2)) := by
  constructor
  · intro l1 l2 a1 a2 nm val hn
    have hstep : ∀ s, step s (XmlEvent.empty "char" (a1 ++ (nm, val) :: a2)) =
        step s (XmlEvent.empty "char" (a1 ++ a2)) := by
      intro s
      simp [step, runCharAttrs_skip_unrecognized nm val hn a1 a2 initCharVars]
    simp only [parse_fnt, runEvents_step_congr _ _ hstep l1 l2 initState]
  · intro l1 l2 ev hev
    simp only [parse_fnt, runEvents_insert_neutral ev hev l1 l2 initState]

/-- Claim C10: an empty `char` element with no `id` attribute is accepted,
its record is inserted under codepoint 0 (the `id` local keeps its default
0), overwriting whatever was stored at codepoint 0, and `format_output`
renders codepoint 0 under the empty-string key. -/
theorem missing_id_inserts_at_zero (attrs : List (String × String)) (v : CharVars)
    (l1 : List XmlEvent) (st1 : FntState)
    (hid : "id" ∉ attrs.map Prod.fst)
    (hrun : runCharAttrs initCharVars attrs = some v)
    (hl1 : runEvents initState l1 = RunOut.more st1) :
    v.id = 0 ∧
    runEvents initState (l1 ++ [XmlEvent.empty "char" attrs]) =
      RunOut.more { st1 with characters := insertSorted 0 (charOfVars v) st1.characters } ∧
    lookupKey 0 (insertSorted 0 (charOfVars v) st1.characters) = some (charOfVars v) ∧
    char_repr 0 = "" := by
  have hv0 : v.id = 0 := by
    have := runCharAttrs_id_preserved attrs hid initCharVars v hrun
    simpa [initCharVars] using this
  refine ⟨hv0, ?_, lookupKey_insertSorted_self 0 (charOfVars v) st1.characters, rfl⟩
  rw [runEvents_append, hl1]
  simp [runEvents, step, hrun, hv0]

/-! Witnesses -/

theorem char_repr_eq_specKeyString_witness :
    (10 : Nat) < 4294967296 ∧ char_repr 10 = specKeyString 10 :=
  ⟨by norm_num, char_repr_eq_specKeyString 10 (by norm_num)⟩

theorem glyph_keys_strictly_ascending_witness :
    List.Pairwise (fun a b => a < b)
      (keysOf (FntState.mk 0
        [(65, charOfVars ⟨65, 0, 0, 0, 0, 0, 0, 0⟩),
         (66, charOfVars ⟨66, 0, 0, 0, 0, 0, 0, 0⟩)] []).characters) :=
  glyph_keys_strictly_ascending
    [XmlEvent.empty "char" [("id", "66")],
     XmlEvent.empty "char" [("id", "65")], XmlEvent.eof]
    (FntState.mk 0
      [(65, charOfVars ⟨65, 0, 0, 0, 0, 0, 0, 0⟩),
       (66, charOfVars ⟨66, 0, 0, 0, 0, 0, 0, 0⟩)] [])
    (by rfl)

theorem malformed_xml_best_effort_witness :
    parse_fnt [XmlEvent.empty "char" [("id", "65")], XmlEvent.err "boom"] =
      some { FntState.mk 0 [(65, charOfVars ⟨65, 0, 0, 0, 0, 0, 0, 0⟩)] [] with
             errLog := ([] : List String) ++ ["Error parsing XML: " ++ "boom"] } :=
  malformed_xml_best_effort [XmlEvent.empty "char" [("id", "65")]] []
    (FntState.mk 0 [(65, charOfVars ⟨65, 0, 0, 0, 0, 0, 0, 0⟩)] []) "boom" (by rfl)

theorem attr_parse_failure_fatal_witness :
    parse_fnt [XmlEvent.empty "char" [("xadvance", "abc")]] = none :=
  attr_parse_failure_fatal [] [] initState "char" [("xadvance", "abc")] (by rfl)
    (Or.inl ⟨rfl, ⟨("xadvance", "abc"), by simp,
      Or.inr ⟨by simp [i32CharKeys], by rfl⟩⟩⟩)

theorem duplicate_codepoint_last_wins_witness :
    lookupKey (CharVars.mk 65 0 0 0 0 0 0 7).id
        (FntState.mk 0 [(65, charOfVars ⟨65, 0, 0, 0, 0, 0, 0, 7⟩)] []).characters =
      some (charOfVars ⟨65, 0, 0, 0, 0, 0, 0, 7⟩) ∧
    List.count (CharVars.mk 65 0 0 0 0 0 0 7).id
      (keysOf (FntState.mk 0
        [(65, charOfVars ⟨65, 0, 0, 0, 0, 0, 0, 7⟩)] []).characters) = 1 :=
  duplicate_codepoint_last_wins
    [XmlEvent.empty "char" [("id", "65")]] [XmlEvent.eof]
    [("id", "65"), ("xadvance", "7")] ⟨65, 0, 0, 0, 0, 0, 0, 7⟩
    (FntState.mk 0 [(65, charOfVars ⟨65, 0, 0, 0, 0, 0, 0, 0⟩)] [])
    (FntState.mk 0 [(65, charOfVars ⟨65, 0, 0, 0, 0, 0, 0, 7⟩)] [])
    (by rfl) (by rfl)
    (by intro attrs2 v2 hmem; simp at hmem)
    (by rfl)

theorem absent_attributes_default_zero_witness :
    (runCharAttrs initCharVars [("id", "65")] = some ⟨65, 0, 0, 0, 0, 0, 0, 0⟩ ∧
     charOfVars ⟨65, 0, 0, 0, 0, 0, 0, 0⟩ = ⟨⟨0, 0⟩, ⟨0, 0⟩, ⟨0, 0⟩, 0⟩) ∧
    (FntState.mk 0 [(65, charOfVars ⟨65, 0, 0, 0, 0, 0, 0, 0⟩)] []).fontSize = 0 :=
  ⟨absent_attributes_default_zero.1 "65" 65 (by rfl),
   absent_attributes_default_zero.2
     [XmlEvent.empty "char" [("id", "65")], XmlEvent.eof]
     (FntState.mk 0 [(65, charOfVars ⟨65, 0, 0, 0, 0, 0, 0, 0⟩)] [])
     (by intro attrs hmem; simp at hmem)
     (by rfl)⟩

theorem conversion_deterministic_witness :
    convert minimalInput = convert minimalInput :=
  conversion_deterministic minimalInput minimalInput rfl

theorem unknown_attr_element_tolerance_witness :
    (parse_fnt [XmlEvent.empty "char" [("id", "65"), ("chnl", "15")], XmlEvent.eof] =
       parse_fnt [XmlEvent.empty "char" [("id", "65")], XmlEvent.eof]) ∧
    (parse_fnt [XmlEvent.start "common" [], XmlEvent.eof] = parse_fnt [XmlEvent.eof]) :=
  ⟨unknown_attr_element_tolerance.1 [] [XmlEvent.eof] [("id", "65")] [] "chnl" "15"
     (by simp [recognizedCharKeys]),
   unknown_attr_element_tolerance.2 [] [XmlEvent.eof] (XmlEvent.start "common" [])
     (by simp [neutralEvent])⟩

theorem missing_id_inserts_at_zero_witness :
    (CharVars.mk 0 0 0 3 0 0 0 0).id = 0 ∧
    runEvents initState
        ([XmlEvent.empty "char" []] ++ [XmlEvent.empty "char" [("x", "3")]]) =
      RunOut.more { FntState.mk 0 [(0, charOfVars initCharVars)] [] with
        characters := insertSorted 0 (charOfVars ⟨0, 0, 0, 3, 0, 0, 0, 0⟩)
          (FntState.mk 0 [(0, charOfVars initCharVars)] []).characters } ∧
    lookupKey 0 (insertSorted 0 (charOfVars ⟨0, 0, 0, 3, 0, 0, 0, 0⟩)
        (FntState.mk 0 [(0, charOfVars initCharVars)] []).characters) =
      some (charOfVars ⟨0, 0, 0, 3, 0, 0, 0, 0⟩) ∧
    char_repr 0 = "" :=
  missing_id_inserts_at_zero [("x", "3")] ⟨0, 0, 0, 3, 0, 0, 0, 0⟩
    [XmlEvent.empty "char" []] (FntState.mk 0 [(0, charOfVars initCharVars)] [])
    (by simp) (by rfl) (by rfl)
